import Mathlib

/-!
# Verification of the PEN browser chat client (`web/script.js`, `V1.1/web/script.js`)

Shallow embedding of the client-side conversation / tool-trace rendering
pipeline of project-PEN-V1 and proofs of the specification claims about it.

The embedding models JavaScript strings as Lean `String` / `List Char`,
JS numbers appearing as durations as `Rat` (with `Math.round x = ⌊x + 1/2⌋`),
optional / possibly-absent JS fields as `Option`, and JS truthiness of a
string field as "present and non-empty".  DOM state touched by the script is
modelled by an explicit `UIState` record; each DOM-mutating function of the
script becomes a state transformer.
-/

namespace PEN

/-! ## The markup renderer (`renderMarkup`, V1.1/web/script.js lines 433-456)

`renderMarkup` first escapes `&`, `<`, `>` (three sequential global
single-character replacements, in that order), then applies the inline
substitutions: inline code `` `x` ``, bold `**x**` (lazy), italic `_x_`
(lazy), and `\r?\n` → `<br>`.  Each substitution is a JS global regex
replace: scan left to right, replace the leftmost match, continue after the
replaced text, and advance one character when there is no match at the
current position. -/

/-- One JS global replace of the single character `c` by the string `rep`
(e.g. `.replace(/&/g, '&amp;')`). -/
def replaceChar (c : Char) (rep : List Char) : List Char → List Char
  | [] => []
  | a :: l => (if a = c then rep else [a]) ++ replaceChar c rep l

/-- The HTML-escaping pass of `renderMarkup`: `&` → `&amp;`, then `<` → `&lt;`,
then `>` → `&gt;`, as three sequential global replacements. -/
def escapeHtmlL (l : List Char) : List Char :=
  replaceChar '>' "&gt;".toList
    (replaceChar '<' "&lt;".toList
      (replaceChar '&' "&amp;".toList l))

/-- String form of the escaping pass. -/
def escapeHtml (s : String) : String := String.mk (escapeHtmlL s.toList)

/-- A character matched by JS regex `.` (without the `s` flag): anything but
a line terminator. -/
def isDotChar (c : Char) : Bool :=
  !(c = '\n' || c = '\r' || c = Char.ofNat 0x2028 || c = Char.ofNat 0x2029)

/-- Scanner for the closing `` ` `` of `` /`([^`]+)`/ `` : accumulates the
(non-empty, backtick-free) middle into `acc` until the closing backtick. -/
def codeCloseGo (acc : List Char) : List Char → Option (List Char × List Char)
  | [] => none
  | a :: rest => if a = '`' then some (acc, rest) else codeCloseGo (acc ++ [a]) rest

/-- Given the text after an opening `` ` ``, find the match of
`` /`([^`]+)`/ `` at that position: the middle (`[^`]+`) and the remainder
after the closing backtick. -/
def codeClose : List Char → Option (List Char × List Char)
  | [] => none
  | a :: rest => if a = '`' then none else codeCloseGo [a] rest

theorem codeCloseGo_spec (l : List Char) :
    ∀ acc mid after, codeCloseGo acc l = some (mid, after) →
      ∃ m, mid = acc ++ m ∧ l = m ++ '`' :: after := by
  induction l with
  | nil => intro acc mid after h; simp [codeCloseGo] at h
  | cons a rest ih =>
    intro acc mid after h
    simp only [codeCloseGo] at h
    by_cases ha : a = '`'
    · rw [if_pos ha] at h
      simp only [Option.some.injEq, Prod.mk.injEq] at h
      obtain ⟨h1, h2⟩ := h
      exact ⟨[], by simp [← h1], by simp [ha, h2]⟩
    · rw [if_neg ha] at h
      obtain ⟨m, hm, hl⟩ := ih (acc ++ [a]) mid after h
      exact ⟨a :: m, by simp [hm], by simp [hl]⟩

theorem codeClose_spec (l mid after : List Char)
    (h : codeClose l = some (mid, after)) :
    mid ≠ [] ∧ l = mid ++ '`' :: after := by
  match l with
  | [] => simp [codeClose] at h
  | a :: rest =>
    simp only [codeClose] at h
    by_cases ha : a = '`'
    · rw [if_pos ha] at h; exact absurd h (by simp)
    · rw [if_neg ha] at h
      obtain ⟨m, hm, hl⟩ := codeCloseGo_spec rest [a] mid after h
      exact ⟨by simp [hm], by simp [hm, hl]⟩

theorem codeClose_length (l mid after : List Char)
    (h : codeClose l = some (mid, after)) : after.length < l.length := by
  obtain ⟨-, hl⟩ := codeClose_spec l mid after h
  subst hl; simp only [List.length_append, List.length_cons]; omega

/-- The inline-code pass: `` safe.replace(/`([^`]+)`/g, '<code>$1</code>') ``. -/
def replaceCode : List Char → List Char
  | [] => []
  | a :: l =>
    if a = '`' then
      match h : codeClose l with
      | some (mid, after) =>
          "<code>".toList ++ mid ++ "</code>".toList ++ replaceCode after
      | none => a :: replaceCode l
    else a :: replaceCode l
termination_by l => l.length
decreasing_by
  · exact Nat.lt_succ_of_lt (codeClose_length _ _ _ h)
  · exact Nat.lt_succ_self _
  · exact Nat.lt_succ_self _

/-- Scanner for the closing `**` of `/\*\*(.+?)\*\*/` (lazy): the middle
grows one `.`-character at a time and the match closes at the first `**`. -/
def boldCloseGo (acc : List Char) : List Char → Option (List Char × List Char)
  | [] => none
  | a :: rest =>
    match rest with
    | b :: rest2 =>
      if a = '*' ∧ b = '*' then some (acc, rest2)
      else if isDotChar a then boldCloseGo (acc ++ [a]) rest else none
    | [] => none

/-- Given the text after an opening `**`, the lazy match of
`/\*\*(.+?)\*\*/` at that position. -/
def boldClose : List Char → Option (List Char × List Char)
  | [] => none
  | a :: rest => if isDotChar a then boldCloseGo [a] rest else none

theorem boldCloseGo_spec (l : List Char) :
    ∀ acc mid after, boldCloseGo acc l = some (mid, after) →
      ∃ m, mid = acc ++ m ∧ l = m ++ '*' :: '*' :: after := by
  induction l with
  | nil => intro acc mid after h; simp [boldCloseGo] at h
  | cons a rest ih =>
    intro acc mid after h
    match rest, ih with
    | [], _ => simp [boldCloseGo] at h
    | b :: rest2, ih =>
      simp only [boldCloseGo] at h
      by_cases hab : a = '*' ∧ b = '*'
      · rw [if_pos hab] at h
        simp only [Option.some.injEq, Prod.mk.injEq] at h
        obtain ⟨h1, h2⟩ := h
        exact ⟨[], by simp [← h1], by simp [hab.1, hab.2, h2]⟩
      · rw [if_neg hab] at h
        by_cases hd : isDotChar a
        · rw [if_pos hd] at h
          obtain ⟨m, hm, hl⟩ := ih (acc ++ [a]) mid after h
          exact ⟨a :: m, by simp [hm], by simp [hl]⟩
        · rw [if_neg hd] at h; exact absurd h (by simp)

theorem boldClose_spec (l mid after : List Char)
    (h : boldClose l = some (mid, after)) :
    mid ≠ [] ∧ l = mid ++ '*' :: '*' :: after := by
  match l with
  | [] => simp [boldClose] at h
  | a :: rest =>
    simp only [boldClose] at h
    by_cases hd : isDotChar a
    · rw [if_pos hd] at h
      obtain ⟨m, hm, hl⟩ := boldCloseGo_spec rest [a] mid after h
      exact ⟨by simp [hm], by simp [hm, hl]⟩
    · rw [if_neg hd] at h; exact absurd h (by simp)

theorem boldClose_length (l mid after : List Char)
    (h : boldClose l = some (mid, after)) : after.length < l.length := by
  obtain ⟨-, hl⟩ := boldClose_spec l mid after h
  subst hl; simp only [List.length_append, List.length_cons]; omega

/-- The bold pass: `safe.replace(/\*\*(.+?)\*\*/g, '<b>$1</b>')`. -/
def replaceBold : List Char → List Char
  | [] => []
  | a :: l =>
    if a = '*' then
      match l with
      | b :: l2 =>
        if b = '*' then
          match h : boldClose l2 with
          | some (mid, after) =>
              "<b>".toList ++ mid ++ "</b>".toList ++ replaceBold after
          | none => a :: replaceBold (b :: l2)
        else a :: replaceBold (b :: l2)
      | [] => [a]
    else a :: replaceBold l
termination_by l => l.length
decreasing_by
  · exact Nat.lt_succ_of_lt (Nat.lt_succ_of_lt (boldClose_length _ _ _ h))
  · simp only [List.length_cons]; omega
  · simp only [List.length_cons]; omega
  · simp only [List.length_cons]; omega

/-- Scanner for the closing `_` of `/_(.+?)_/` (lazy). -/
def italicCloseGo (acc : List Char) : List Char → Option (List Char × List Char)
  | [] => none
  | a :: rest =>
    if a = '_' then some (acc, rest)
    else if isDotChar a then italicCloseGo (acc ++ [a]) rest else none

/-- Given the text after an opening `_`, the lazy match of `/_(.+?)_/` at
that position. -/
def italicClose : List Char → Option (List Char × List Char)
  | [] => none
  | a :: rest => if isDotChar a then italicCloseGo [a] rest else none

theorem italicCloseGo_spec (l : List Char) :
    ∀ acc mid after, italicCloseGo acc l = some (mid, after) →
      ∃ m, mid = acc ++ m ∧ l = m ++ '_' :: after := by
  induction l with
  | nil => intro acc mid after h; simp [italicCloseGo] at h
  | cons a rest ih =>
    intro acc mid after h
    simp only [italicCloseGo] at h
    by_cases ha : a = '_'
    · rw [if_pos ha] at h
      simp only [Option.some.injEq, Prod.mk.injEq] at h
      obtain ⟨h1, h2⟩ := h
      exact ⟨[], by simp [← h1], by simp [ha, h2]⟩
    · rw [if_neg ha] at h
      by_cases hd : isDotChar a
      · rw [if_pos hd] at h
        obtain ⟨m, hm, hl⟩ := ih (acc ++ [a]) mid after h
        exact ⟨a :: m, by simp [hm], by simp [hl]⟩
      · rw [if_neg hd] at h; exact absurd h (by simp)

theorem italicClose_spec (l mid after : List Char)
    (h : italicClose l = some (mid, after)) :
    mid ≠ [] ∧ l = mid ++ '_' :: after := by
  match l with
  | [] => simp [italicClose] at h
  | a :: rest =>
    simp only [italicClose] at h
    by_cases hd : isDotChar a
    · rw [if_pos hd] at h
      obtain ⟨m, hm, hl⟩ := italicCloseGo_spec rest [a] mid after h
      exact ⟨by simp [hm], by simp [hm, hl]⟩
    · rw [if_neg hd] at h; exact absurd h (by simp)

theorem italicClose_length (l mid after : List Char)
    (h : italicClose l = some (mid, after)) : after.length < l.length := by
  obtain ⟨-, hl⟩ := italicClose_spec l mid after h
  subst hl; simp only [List.length_append, List.length_cons]; omega

/-- The italic pass: `safe.replace(/_(.+?)_/g, '<i>$1</i>')`. -/
def replaceItalic : List Char → List Char
  | [] => []
  | a :: l =>
    if a = '_' then
      match h : italicClose l with
      | some (mid, after) =>
          "<i>".toList ++ mid ++ "</i>".toList ++ replaceItalic after
      | none => a :: replaceItalic l
    else a :: replaceItalic l
termination_by l => l.length
decreasing_by
  · exact Nat.lt_succ_of_lt (italicClose_length _ _ _ h)
  · exact Nat.lt_succ_self _
  · exact Nat.lt_succ_self _

/-- The newline pass: `safe.replace(/\r?\n/g, '<br>')`. -/
def replaceNL : List Char → List Char
  | [] => []
  | '\r' :: '\n' :: l => "<br>".toList ++ replaceNL l
  | '\n' :: l => "<br>".toList ++ replaceNL l
  | a :: l => a :: replaceNL l

/-- The four inline-formatting substitutions of `renderMarkup`, applied in
source order: inline code, bold, italic, newline → `<br>`. -/
def applyInlineFormatting (l : List Char) : List Char :=
  replaceNL (replaceItalic (replaceBold (replaceCode l)))

/-- `renderMarkup` (V1.1/web/script.js lines 433-456): empty input short
circuits; otherwise escape the HTML-significant characters first, then apply
the inline-formatting substitutions. -/
def renderMarkup (text : String) : String :=
  if text = "" then ""
  else String.mk (applyInlineFormatting (escapeHtmlL text.toList))

/-! ## Data model: tool records and the UI state

Optional / possibly-absent JS fields are `Option`; a missing field and a
field holding `undefined`/`null` are both `none`.  JS `||` on strings treats
the empty string as falsy, `??` only skips `null`/`undefined`. -/

/-- JS truthiness of a possibly-absent string field. -/
def jsTruthy : Option String → Bool
  | none => false
  | some s => s ≠ ""

/-- JS `a || b` on strings (empty string is falsy). -/
def jsOrS (a b : String) : String := if a = "" then b else a

/-- JS `String.prototype.toLowerCase()` (character-wise lowering; the status
strings involved are ASCII). -/
def jsToLower (s : String) : String := String.mk (s.toList.map Char.toLower)

/-- A JS whitespace character as removed by `String.prototype.trim()`
(ASCII subset). -/
def jsWhitespaceChar (c : Char) : Bool :=
  c = ' ' || c = '\t' || c = '\n' || c = '\r' || c = '\x0b' || c = '\x0c'

/-- JS `String.prototype.trim()`: strip leading and trailing whitespace. -/
def jsTrim (s : String) : String :=
  String.mk (((s.toList.dropWhile jsWhitespaceChar).reverse.dropWhile jsWhitespaceChar).reverse)

/-- An opaque structured value carried in a tool record's `parameters` /
`result` field: either already a string, or a non-string JS value modelled by
its `JSON.stringify(·, null, 2)` image. -/
inductive JsValue where
  | str (s : String)
  | json (pretty : String)
deriving DecidableEq

/-- The text the panel puts in a detail `<pre>` block:
`typeof v === "string" ? v : JSON.stringify(v, null, 2)`. -/
def JsValue.text : JsValue → String
  | .str s => s
  | .json p => p

/-- A tool-interaction record as consumed by `updateTools`
(V1.1/web/script.js lines 132-220).  Field names follow the script's
fallback chains. -/
structure ToolRecord where
  name : Option String := none
  tool_name : Option String := none
  tool : Option String := none
  status : Option String := none
  tool_status : Option String := none
  error : Option String := none
  duration_ms : Option Rat := none
  execution_time_ms : Option Rat := none
  started_at : Option String := none
  timestamp : Option String := none
  parameters : Option JsValue := none
  tool_input : Option JsValue := none
  result : Option JsValue := none
  tool_output : Option JsValue := none
deriving DecidableEq

/-- `tool.name || tool.tool_name || tool.tool || "tool"` (line 142). -/
def toolName (t : ToolRecord) : String :=
  jsOrS (t.name.getD "") (jsOrS (t.tool_name.getD "") (jsOrS (t.tool.getD "") "tool"))

/-- Lines 146-148: `(tool.status || tool.tool_status ||
(tool.error ? "failed" : "completed") || "").toLowerCase()`.
The ternary always yields a non-empty string, so the final `|| ""` is dead. -/
def toolStatusString (t : ToolRecord) : String :=
  jsToLower
    (jsOrS (t.status.getD "")
      (jsOrS (t.tool_status.getD "")
        (if jsTruthy t.error then "failed" else "completed")))

/-- Line 149: `status.classList.add(st || "running")`. -/
def toolStatusClass (t : ToolRecord) : String :=
  let st := toolStatusString t
  if st = "" then "running" else st

/-- Lines 150-151: the displayed label (English labels of the V1.1 variant;
the base variant uses the same branch structure with Turkish labels). -/
def toolStatusLabel (t : ToolRecord) : String :=
  let st := toolStatusString t
  if st = "completed" then "Completed"
  else if st = "failed" then "Failed"
  else "Running"

/-- JS `Math.round` on an exact rational: `⌊x + 1/2⌋`. -/
def jsRound (q : Rat) : Int := Rat.floor (q + 1/2)

theorem jsRound_eq_floor (q : Rat) : jsRound q = ⌊q + 1/2⌋ := by
  rw [jsRound, Rat.floor_def', Rat.floor_def]

/-- Line 159: `tool.duration_ms ?? tool.execution_time_ms`. -/
def toolDuration (t : ToolRecord) : Option Rat :=
  t.duration_ms.or t.execution_time_ms

/-- Lines 158-162: the `parts` array of the metadata line. -/
def toolMetaParts (t : ToolRecord) : List String :=
  (match toolDuration t with
   | some d => [toString (jsRound d) ++ " ms"]
   | none => []) ++
  (if jsTruthy t.started_at then [t.started_at.getD ""]
   else if jsTruthy t.timestamp then [t.timestamp.getD ""]
   else [])

/-- Lines 163-166: the metadata line is attached iff `parts` is non-empty,
with the parts joined by `" · "`. -/
def toolMeta (t : ToolRecord) : Option String :=
  let parts := toolMetaParts t
  if parts = [] then none else some (String.intercalate " · " parts)

/-- Lines 172-208: the (up to two) detail blocks, as (title, text) pairs. -/
def toolDetails (t : ToolRecord) : List (String × String) :=
  (match t.parameters.or t.tool_input with
   | some v => [("Parameters", v.text)]
   | none => []) ++
  (match t.result.or t.tool_output with
   | some v => [("Result", v.text)]
   | none => [])

/-- One rendered tool card of the sidebar. -/
structure ToolCard where
  name : String
  statusClass : String
  statusLabel : String
  meta : Option String
  details : List (String × String)
  detailsShown : Bool
deriving DecidableEq

/-- Rendering one record into a card; the details container starts with
`display = expandAllTools ? "block" : "none"` (line 170). -/
def renderToolCard (expandAll : Bool) (t : ToolRecord) : ToolCard :=
  { name := toolName t
    statusClass := toolStatusClass t
    statusLabel := toolStatusLabel t
    meta := toolMeta t
    details := toolDetails t
    detailsShown := expandAll }

/-- One child node of the conversation scroll region (besides the static
welcome placeholder, modelled separately by its visibility flag). -/
inductive ConvEntry where
  | bubble (role content : String)
  | typing
deriving DecidableEq

/-- Whether a conversation node is the `typingIndicator` placeholder. -/
def isTypingEntry : ConvEntry → Bool
  | .typing => true
  | .bubble _ _ => false

/-- The DOM / script state touched by the chat client. -/
structure UIState where
  isSending : Bool
  inputValue : String
  inputDisabled : Bool
  sendDisabled : Bool
  inputFocused : Bool
  welcomeVisible : Bool
  conv : List ConvEntry
  toolCards : List ToolCard
  toolsEmptyShown : Bool
  showToolOutput : Bool
  expandAllTools : Bool
deriving DecidableEq

/-- The page-load state: script.js lines 3-6 (`isSending = false`,
`showToolOutput = true`, `expandAllTools = false`), welcome placeholder
visible, empty conversation, tools panel showing its empty indicator. -/
def initUIState : UIState :=
  { isSending := false
    inputValue := ""
    inputDisabled := false
    sendDisabled := false
    inputFocused := false
    welcomeVisible := true
    conv := []
    toolCards := []
    toolsEmptyShown := true
    showToolOutput := true
    expandAllTools := false }

/-! ## Operations of the script -/

/-- `appendMessage(role, content)` (lines 28-78): hides the welcome
placeholder when `role === "user"` and appends one bubble. -/
def appendMessage (s : UIState) (role content : String) : UIState :=
  { s with
    welcomeVisible := if role = "user" then false else s.welcomeVisible
    conv := s.conv ++ [.bubble role content] }

/-- `showTyping()` (lines 80-88): no-op if the `typingIndicator` node
already exists, else appends it. -/
def showTyping (s : UIState) : UIState :=
  if s.conv.any isTypingEntry then s
  else { s with conv := s.conv ++ [.typing] }

/-- Remove the first `typingIndicator` node, if any. -/
def removeFirstTyping : List ConvEntry → List ConvEntry
  | [] => []
  | e :: l => if isTypingEntry e then l else e :: removeFirstTyping l

/-- `hideTyping()` (lines 90-93): removes the placeholder if present. -/
def hideTyping (s : UIState) : UIState :=
  { s with conv := removeFirstTyping s.conv }

/-- `resetChatUI()` (lines 100-113): clears all bubbles, restores the
welcome placeholder, clears the tool panel back to its empty indicator. -/
def resetChatUI (s : UIState) : UIState :=
  { s with
    conv := []
    welcomeVisible := true
    toolCards := []
    toolsEmptyShown := true }

/-- `updateTools(tools)` (lines 115-221): full wipe-and-rebuild; an empty
batch restores the empty-state indicator, otherwise each record is rendered
with the current `expandAllTools` flag. -/
def updateTools (s : UIState) (tools : List ToolRecord) : UIState :=
  if tools = [] then { s with toolCards := [], toolsEmptyShown := true }
  else
    { s with
      toolCards := tools.map (renderToolCard s.expandAllTools)
      toolsEmptyShown := false }

/-! ## The session controller: `sendMessage` (lines 223-280)

`sendMessage` is split at its unique suspension point (the network round
trip): `sendMessageStart` is the synchronous prefix up to and including
issuing the request (the returned `Option String` is the body of the
outbound request, `none` when no request is issued), and
`sendMessageFinish` is the continuation, fed with the outcome of the
round trip. -/

/-- One entry of a chat response's `messages` array. -/
structure ChatMessage where
  role : String
  content : Option String
deriving DecidableEq

/-- The JSON body of a successful `/api/pen/chat` response. -/
structure ChatResponse where
  error : Option String := none
  messages : Option (List ChatMessage) := none
  reply : Option String := none
  tools : Option (List ToolRecord) := none
deriving DecidableEq

/-- How the chat round trip can end: non-2xx HTTP status (the script throws
`Server error: <status>`), a rejected fetch, a rejected `res.json()`, or a
parsed response body. -/
inductive FetchOutcome where
  | httpError (status : Nat)
  | networkError (message : String)
  | parseError (message : String)
  | success (data : ChatResponse)

/-- Lines 223-234: the guard (`isSending`, empty trimmed input), then
clear + disable the input, disable the send button, optimistically append
the user bubble, show the typing indicator, and issue the request. -/
def sendMessageStart (s : UIState) : UIState × Option String :=
  if s.isSending then (s, none)
  else
    let text := jsTrim s.inputValue
    if text = "" then (s, none)
    else
      let s1 := { s with
        isSending := true, inputValue := "", inputDisabled := true, sendDisabled := true }
      (showTyping (appendMessage s1 "user" text), some text)

/-- Lines 257-265: the message-rendering phase of a successful response
with no (truthy) `error` field: `forEach` over a `messages` array appending
assistant/model entries as assistant bubbles, else a truthy `reply` string
as a single assistant bubble. -/
def processChatMessages (s : UIState) (data : ChatResponse) : UIState :=
  match data.messages with
  | some ms =>
      ms.foldl (fun acc m =>
        if m.role = "assistant" ∨ m.role = "model" then
          appendMessage acc "assistant" (m.content.getD "")
        else acc) s
  | none =>
      match data.reply with
      | some r => if r ≠ "" then appendMessage s "assistant" r else s
      | none => s

/-- Lines 254-269: processing a parsed response body.  A truthy `error`
field is rendered as a system bubble and short-circuits; otherwise the
`messages` / `reply` phase runs, and a `tools` array, if present, is
rendered. -/
def processChatData (s : UIState) (data : ChatResponse) : UIState :=
  if jsTruthy data.error then appendMessage s "system" (data.error.getD "")
  else
    let s1 := processChatMessages s data
    match data.tools with
    | some ts => updateTools s1 ts
    | none => s1

/-- Lines 247-279: the continuation after the round trip.  Every thrown
failure lands in the `catch` (hide typing, append a connection-error system
bubble); a parsed body hides typing and is processed; the `finally` block
unconditionally clears the guard, re-enables input and send button, and
focuses the input. -/
def sendMessageFinish (s : UIState) (o : FetchOutcome) : UIState :=
  let s1 :=
    match o with
    | .success data => processChatData (hideTyping s) data
    | .httpError status =>
        appendMessage (hideTyping s) "system"
          ("Connection error: Server error: " ++ toString status)
    | .networkError m => appendMessage (hideTyping s) "system" ("Connection error: " ++ m)
    | .parseError m => appendMessage (hideTyping s) "system" ("Connection error: " ++ m)
  { s1 with
    isSending := false, inputDisabled := false, sendDisabled := false, inputFocused := true }

/-! ## The tool-output toggle (`bindEvents`, lines 405-424) -/

/-- One click of `toolOutputToggle`: flip `showToolOutput`, set
`expandAllTools` to the new value, and force every currently rendered
card's details container to `expandAllTools ? "block" : "none"`. -/
def toggleToolOutput (s : UIState) : UIState :=
  let v := !s.showToolOutput
  { s with
    showToolOutput := v
    expandAllTools := v
    toolCards := s.toolCards.map (fun c => { c with detailsShown := v }) }

/-! ## `loadChatHistory` (lines 282-336), success path -/

/-- One entry of the history response's `messages` array. -/
structure HistoryMessage where
  role : Option String := none
  content : Option String := none
  timestamp : Option String := none
deriving DecidableEq

/-- The JSON body of a successful `/api/pen/history` response. -/
structure HistoryResponse where
  messages : Option (List HistoryMessage) := none
  tool_interactions : Option (List ToolRecord) := none

/-- The effect of `loadChatHistory` once a body has been parsed
(lines 293-331): with a non-empty `messages` list, hide the welcome
placeholder, replay every message (`msg.role || "user"`,
`msg.content || ""`), then render `tool_interactions` when non-empty;
otherwise do nothing. -/
def loadChatHistorySuccess (s : UIState) (data : HistoryResponse) : UIState :=
  let messages := data.messages.getD []
  if messages.length > 0 then
    let s1 := { s with welcomeVisible := false }
    let s2 := messages.foldl
      (fun acc m => appendMessage acc (jsOrS (m.role.getD "") "user") (m.content.getD "")) s1
    let tools := data.tool_interactions.getD []
    if tools.length > 0 then updateTools s2 tools else s2
  else s

/-! ## Conversation-view operation traces (for the welcome-placeholder
one-way property) -/

/-- The operations that can touch the conversation view and tool panel
between sends: append a bubble, show/hide the typing indicator, render a
tool batch. -/
inductive ViewOp where
  | append (role content : String)
  | showTyping
  | hideTyping
  | renderTools (tools : List ToolRecord)

/-- Apply one view operation. -/
def applyViewOp (s : UIState) : ViewOp → UIState
  | .append role content => appendMessage s role content
  | .showTyping => showTyping s
  | .hideTyping => hideTyping s
  | .renderTools ts => updateTools s ts

/-- Apply a sequence of view operations. -/
def applyViewOps (s : UIState) (ops : List ViewOp) : UIState :=
  ops.foldl applyViewOp s

/-! ## Small helper lemmas -/

theorem not_truthy_getD (o : Option String) (h : ¬ jsTruthy o) : o.getD "" = "" := by
  cases o with
  | none => rfl
  | some s => simp [jsTruthy] at h; simp [h]

theorem truthy_getD_ne {o : Option String} (h : jsTruthy o) : o.getD "" ≠ "" := by
  cases o with
  | none => simp [jsTruthy] at h
  | some s => simpa [jsTruthy] using h

theorem intercalate_pair (sep a b : String) :
    String.intercalate sep [a, b] = a ++ sep ++ b := rfl

theorem intercalate_single (sep a : String) :
    String.intercalate sep [a] = a := rfl

theorem showTyping_isSending (s : UIState) : (showTyping s).isSending = s.isSending := by
  unfold showTyping; split <;> rfl

theorem showTyping_inputDisabled (s : UIState) :
    (showTyping s).inputDisabled = s.inputDisabled := by
  unfold showTyping; split <;> rfl

theorem showTyping_sendDisabled (s : UIState) :
    (showTyping s).sendDisabled = s.sendDisabled := by
  unfold showTyping; split <;> rfl

theorem showTyping_inputValue (s : UIState) : (showTyping s).inputValue = s.inputValue := by
  unfold showTyping; split <;> rfl

/-! ## Claim C1: displayed tool status -/

/-- C1, counterexample.  The claim says a record with neither a status field
nor an error field "is displayed with the running label"; `updateTools`
actually falls back to `"completed"` (line 147: `tool.error ? "failed" :
"completed"`), so such a record is rendered as Completed, not Running. -/
theorem C1_counterexample :
    (renderToolCard false {}).statusLabel = "Completed" ∧
    (renderToolCard false {}).statusLabel ≠ "Running" := by
  constructor <;> decide

/-- C1 (amended): the displayed status is derived from an explicit (truthy)
`status` / `tool_status` field when present, else a record with an `error`
field renders as failed, else it renders as **completed** (not running);
and the two-record batch of the claim (one `status: "failed"`, one
status-less record with an `error`) renders both cards as failed and none
as completed. -/
theorem C1_amended :
    (∀ t : ToolRecord, jsTruthy t.status →
      toolStatusString t = jsToLower (t.status.getD "")) ∧
    (∀ t : ToolRecord, ¬ jsTruthy t.status → ¬ jsTruthy t.tool_status →
      jsTruthy t.error → toolStatusLabel t = "Failed") ∧
    (∀ t : ToolRecord, ¬ jsTruthy t.status → ¬ jsTruthy t.tool_status →
      ¬ jsTruthy t.error → toolStatusLabel t = "Completed") ∧
    ((updateTools initUIState
        [{ status := some "failed" }, { error := some "boom" }]).toolCards.map
          ToolCard.statusLabel = ["Failed", "Failed"] ∧
      ((updateTools initUIState
        [{ status := some "failed" }, { error := some "boom" }]).toolCards.map
          ToolCard.statusLabel).count "Completed" = 0) := by
  refine ⟨?_, ?_, ?_, by decide, by decide⟩
  · intro t ht
    have h1 : t.status.getD "" ≠ "" := truthy_getD_ne ht
    simp [toolStatusString, jsOrS, if_neg h1]
  · intro t h1 h2 h3
    rw [Bool.not_eq_true] at h1 h2
    have e1 := not_truthy_getD t.status (by simp [h1])
    have e2 := not_truthy_getD t.tool_status (by simp [h2])
    simp only [toolStatusLabel, toolStatusString, jsOrS, e1, e2, h3, if_pos, if_true]
    decide
  · intro t h1 h2 h3
    rw [Bool.not_eq_true] at h1 h2 h3
    have e1 := not_truthy_getD t.status (by simp [h1])
    have e2 := not_truthy_getD t.tool_status (by simp [h2])
    simp only [toolStatusLabel, toolStatusString, jsOrS, e1, e2, h3, if_false]
    decide

/-- C1 witness: the amended theorem applied at concrete records. -/
theorem C1_amended_witness :
    toolStatusString { status := some "FAILED" } = "failed" ∧
    toolStatusLabel { error := some "boom" } = "Failed" ∧
    toolStatusLabel ({} : ToolRecord) = "Completed" :=
  ⟨(C1_amended.1 { status := some "FAILED" } (by decide)).trans (by decide),
   C1_amended.2.1 { error := some "boom" } (by decide) (by decide) (by decide),
   C1_amended.2.2.1 {} (by decide) (by decide) (by decide)⟩

/-! ## Claim C4: unconditional cleanup on every exit path of `sendMessage` -/

/-- C4: on every exit path of `sendMessage` — parsed success body, HTTP
status failure, network failure, parse failure — the `finally` step
unconditionally clears the in-flight guard, re-enables the input field and
the send control, and focuses the input field. -/
theorem C4_cleanup_on_every_exit_path :
    ∀ (s : UIState) (o : FetchOutcome),
      (sendMessageFinish s o).isSending = false ∧
      (sendMessageFinish s o).inputDisabled = false ∧
      (sendMessageFinish s o).sendDisabled = false ∧
      (sendMessageFinish s o).inputFocused = true := by
  intro s o
  cases o <;> simp [sendMessageFinish]

/-! ## Claim C6: coupling of `showToolOutput` and `expandAllTools` -/

/-- C6, counterexample.  The claim asserts the two flags are coupled 1:1 "in
every reachable state, including the initial state"; the initial state
(script.js lines 5-6) has `showToolOutput = true` and
`expandAllTools = false`, and the first toggle click leaves `expandAllTools`
at `false` rather than flipping it. -/
theorem C6_counterexample :
    initUIState.showToolOutput = true ∧ initUIState.expandAllTools = false ∧
    (toggleToolOutput initUIState).expandAllTools = initUIState.expandAllTools :=
  ⟨rfl, rfl, rfl⟩

/-- C6 (amended): in the initial state the flags differ (`showToolOutput =
true`, `expandAllTools = false`); every click of the tool-output toggle sets
both flags to the negation of the previous `showToolOutput` — so after any
click they are equal, and from then on each click flips both together — and
the same click forces every currently rendered card's details to the
resulting flag value, keeping the same rendered cards (same names, same
count — no re-fetch). -/
theorem C6_amended :
    (initUIState.showToolOutput = true ∧ initUIState.expandAllTools = false) ∧
    (∀ s : UIState, (toggleToolOutput s).showToolOutput = !s.showToolOutput ∧
      (toggleToolOutput s).expandAllTools = !s.showToolOutput) ∧
    (∀ s : UIState, (toggleToolOutput s).showToolOutput = (toggleToolOutput s).expandAllTools) ∧
    (∀ (s : UIState) (c : ToolCard), c ∈ (toggleToolOutput s).toolCards →
      c.detailsShown = (toggleToolOutput s).expandAllTools) ∧
    (∀ s : UIState, (toggleToolOutput s).toolCards.map ToolCard.name =
      s.toolCards.map ToolCard.name) := by
  refine ⟨⟨rfl, rfl⟩, fun s => ⟨rfl, rfl⟩, fun s => rfl, ?_, ?_⟩
  · intro s c hc
    simp only [toggleToolOutput, List.mem_map] at hc
    obtain ⟨c0, -, rfl⟩ := hc
    rfl
  · intro s
    simp [toggleToolOutput]

/-- C6 witness: the amended theorem applied at a concrete state with one
rendered, collapsed card. -/
theorem C6_amended_witness :
    (renderToolCard false {}).detailsShown =
      (toggleToolOutput
        { initUIState with toolCards := [renderToolCard false {}] }).expandAllTools :=
  C6_amended.2.2.2.1 { initUIState with toolCards := [renderToolCard false {}] }
    (renderToolCard false {}) (by decide)

/-! ## Claim C10: `loadChatHistory` with an empty or absent messages list -/

/-- C10: when the history response's `messages` list is absent or empty, the
operation changes nothing — even when `tool_interactions` is a non-empty
array: no message is appended, the welcome placeholder keeps its state, and
the tool panel is never updated. -/
theorem C10_history_empty_is_noop :
    ∀ (s : UIState) (ti : Option (List ToolRecord)),
      loadChatHistorySuccess s { messages := none, tool_interactions := ti } = s ∧
      loadChatHistorySuccess s { messages := some [], tool_interactions := ti } = s := by
  intro s ti
  constructor <;> rfl

/-! ## Claim C3: the single-flight guard of `sendMessage` -/

/-- C3: `sendMessage` is a no-op when the `isSending` guard is set or when
the trimmed input is empty; from an idle state with non-empty trimmed input
it issues exactly one outbound request, a second invocation while the first
is pending issues none and changes nothing, and the pending state keeps the
guard set and the input box and send control disabled. -/
theorem C3_single_flight :
    (∀ s : UIState, s.isSending = true → sendMessageStart s = (s, none)) ∧
    (∀ s : UIState, jsTrim s.inputValue = "" → sendMessageStart s = (s, none)) ∧
    (∀ s : UIState, s.isSending = false → jsTrim s.inputValue ≠ "" →
      (sendMessageStart s).2.isSome = true ∧
      sendMessageStart (sendMessageStart s).1 = ((sendMessageStart s).1, none) ∧
      (sendMessageStart s).1.isSending = true ∧
      (sendMessageStart s).1.inputDisabled = true ∧
      (sendMessageStart s).1.sendDisabled = true) := by
  refine ⟨?_, ?_, ?_⟩
  · intro s h; simp [sendMessageStart, h]
  · intro s h
    by_cases hs : s.isSending
    · simp [sendMessageStart, hs]
    · simp [sendMessageStart, hs, h]
  · intro s h1 h2
    have e : sendMessageStart s =
        (showTyping (appendMessage
          { s with isSending := true, inputValue := "",
                   inputDisabled := true, sendDisabled := true } "user" (jsTrim s.inputValue)),
         some (jsTrim s.inputValue)) := by
      simp [sendMessageStart, h1, h2]
    rw [e]
    have hsend : (showTyping (appendMessage
        { s with isSending := true, inputValue := "",
                 inputDisabled := true, sendDisabled := true } "user"
        (jsTrim s.inputValue))).isSending = true := by
      rw [showTyping_isSending]; rfl
    refine ⟨rfl, ?_, hsend, ?_, ?_⟩
    · simp [sendMessageStart, hsend]
    · rw [showTyping_inputDisabled]; rfl
    · rw [showTyping_sendDisabled]; rfl

/-- C3 witness: the single-flight property at a concrete idle state. -/
theorem C3_single_flight_witness :
    (sendMessageStart { initUIState with inputValue := "hello" }).2.isSome = true ∧
    sendMessageStart (sendMessageStart { initUIState with inputValue := "hello" }).1 =
      ((sendMessageStart { initUIState with inputValue := "hello" }).1, none) :=
  ⟨(C3_single_flight.2.2 { initUIState with inputValue := "hello" } rfl (by decide)).1,
   (C3_single_flight.2.2 { initUIState with inputValue := "hello" } rfl (by decide)).2.1⟩

/-! ## Claim C7: the welcome placeholder transition is one-way -/

theorem applyViewOp_welcome_mono (s : UIState) (op : ViewOp)
    (h : s.welcomeVisible = false) : (applyViewOp s op).welcomeVisible = false := by
  cases op with
  | append role content =>
    simp only [applyViewOp, appendMessage]
    split <;> simp [h]
  | showTyping =>
    simp only [applyViewOp, showTyping]
    split <;> simp [h]
  | hideTyping => exact h
  | renderTools ts =>
    simp only [applyViewOp, updateTools]
    split <;> simp [h]

/-- C7: an append with role `user` hides the welcome placeholder; once
hidden, no sequence of appends, typing-indicator operations or tool renders
makes it visible again; only `resetChatUI` restores it, simultaneously
clearing all bubbles and returning the tool panel to its empty-state
indicator. -/
theorem C7_welcome_one_way :
    (∀ (s : UIState) (content : String),
      (appendMessage s "user" content).welcomeVisible = false) ∧
    (∀ (s : UIState) (ops : List ViewOp), s.welcomeVisible = false →
      (applyViewOps s ops).welcomeVisible = false) ∧
    (∀ (s : UIState) (content : String) (ops : List ViewOp),
      (applyViewOps (appendMessage s "user" content) ops).welcomeVisible = false) ∧
    (∀ s : UIState, (resetChatUI s).welcomeVisible = true ∧ (resetChatUI s).conv = [] ∧
      (resetChatUI s).toolCards = [] ∧ (resetChatUI s).toolsEmptyShown = true) := by
  have mono : ∀ (ops : List ViewOp) (s : UIState), s.welcomeVisible = false →
      (applyViewOps s ops).welcomeVisible = false := by
    intro ops
    induction ops with
    | nil => intro s h; exact h
    | cons op ops ih =>
      intro s h
      rw [applyViewOps, List.foldl_cons]
      exact ih _ (applyViewOp_welcome_mono s op h)
  refine ⟨?_, fun s ops h => mono ops s h, ?_, ?_⟩
  · intro s content; simp [appendMessage]
  · intro s content ops
    exact mono ops _ (by simp [appendMessage])
  · intro s; exact ⟨rfl, rfl, rfl, rfl⟩

/-- C7 witness: the monotone part applied after a concrete user append. -/
theorem C7_welcome_one_way_witness :
    (applyViewOps (appendMessage initUIState "user" "hi")
      [ViewOp.showTyping, ViewOp.hideTyping]).welcomeVisible = false :=
  C7_welcome_one_way.2.1 (appendMessage initUIState "user" "hi")
    [ViewOp.showTyping, ViewOp.hideTyping] (by decide)

/-! ## Claim C8: idempotence of the typing indicator -/

theorem removeFirstTyping_of_none (l : List ConvEntry)
    (h : ∀ e ∈ l, isTypingEntry e = false) : removeFirstTyping l = l := by
  induction l with
  | nil => rfl
  | cons e l ih =>
    rw [removeFirstTyping, h e (List.mem_cons_self e l), if_neg (by simp),
      ih (fun x hx => h x (List.mem_cons_of_mem e hx))]

/-- C8: `showTyping` is idempotent — after two consecutive calls from a
state with no typing placeholder exactly one placeholder node exists — and
`hideTyping` with no placeholder present leaves the state unchanged. -/
theorem C8_typing_idempotent :
    (∀ s : UIState, showTyping (showTyping s) = showTyping s) ∧
    (∀ s : UIState, s.conv.countP isTypingEntry = 0 →
      (showTyping (showTyping s)).conv.countP isTypingEntry = 1) ∧
    (∀ s : UIState, s.conv.countP isTypingEntry = 0 → hideTyping s = s) := by
  have hidem : ∀ s : UIState, showTyping (showTyping s) = showTyping s := by
    intro s
    by_cases h : s.conv.any isTypingEntry
    · simp [showTyping, h]
    · have h2 : ((s.conv ++ [ConvEntry.typing]).any isTypingEntry) = true := by
        simp [isTypingEntry]
      simp [showTyping, h, h2]
  have hzero : ∀ s : UIState, s.conv.countP isTypingEntry = 0 →
      s.conv.any isTypingEntry = false := by
    intro s h
    rw [List.any_eq_false]
    intro x hx
    simpa using List.countP_eq_zero.mp h x hx
  refine ⟨hidem, ?_, ?_⟩
  · intro s h
    rw [hidem s]
    simp [showTyping, hzero s h, List.countP_append, h, List.countP_cons, isTypingEntry]
  · intro s h
    have : removeFirstTyping s.conv = s.conv :=
      removeFirstTyping_of_none s.conv
        (fun e he => by simpa using List.countP_eq_zero.mp h e he)
    simp [hideTyping, this]

/-- C8 witness: both guarded parts applied at the initial (typing-free)
state. -/
theorem C8_typing_idempotent_witness :
    (showTyping (showTyping initUIState)).conv.countP isTypingEntry = 1 ∧
    hideTyping initUIState = initUIState :=
  ⟨C8_typing_idempotent.2.1 initUIState (by decide),
   C8_typing_idempotent.2.2 initUIState (by decide)⟩

/-! ## Claim C9: the tool metadata line -/

/-- C9: a rendered card carries a metadata line exactly when a duration
(`duration_ms ?? execution_time_ms`) or a truthy start/observed timestamp is
available; the line is the duration rounded to the nearest millisecond
(`Math.round`, within 1/2 of the exact value) formatted `"<n> ms"`, joined
with `started_at` if present else `timestamp`, the parts separated by a
middle-dot. -/
theorem C9_tool_meta :
    (∀ (b : Bool) (t : ToolRecord), (renderToolCard b t).meta = toolMeta t) ∧
    (∀ t : ToolRecord, (toolMeta t).isSome =
      ((toolDuration t).isSome || jsTruthy t.started_at || jsTruthy t.timestamp)) ∧
    (∀ q : Rat, |(jsRound q : Rat) - q| ≤ 1/2) ∧
    (∀ (t : ToolRecord) (d : Rat) (st : String), toolDuration t = some d →
      t.started_at = some st → st ≠ "" →
      toolMeta t = some (toString (jsRound d) ++ " ms" ++ " · " ++ st)) ∧
    (∀ (t : ToolRecord) (d : Rat) (ts : String), toolDuration t = some d →
      ¬ jsTruthy t.started_at → t.timestamp = some ts → ts ≠ "" →
      toolMeta t = some (toString (jsRound d) ++ " ms" ++ " · " ++ ts)) ∧
    (∀ (t : ToolRecord) (d : Rat), toolDuration t = some d →
      ¬ jsTruthy t.started_at → ¬ jsTruthy t.timestamp →
      toolMeta t = some (toString (jsRound d) ++ " ms")) ∧
    (∀ (t : ToolRecord) (st : String), toolDuration t = none →
      t.started_at = some st → st ≠ "" → toolMeta t = some st) := by
  refine ⟨fun b t => rfl, ?_, ?_, ?_, ?_, ?_, ?_⟩
  · intro t
    rcases hD : toolDuration t with _ | d <;>
      by_cases hS : jsTruthy t.started_at <;>
        by_cases hT : jsTruthy t.timestamp <;>
          simp [toolMeta, toolMetaParts, hD, hS, hT]
  · intro q
    have h1 := Int.floor_le (q + 1/2)
    have h2 := Int.lt_floor_add_one (q + 1/2)
    rw [abs_le, jsRound_eq_floor]
    constructor <;> linarith
  · intro t d st hD hS hne
    have hTr : jsTruthy (some st) = true := by simp [jsTruthy, hne]
    simp [toolMeta, toolMetaParts, hD, hS, hTr, intercalate_pair]
  · intro t d ts hD hS hT hne
    rw [Bool.not_eq_true] at hS
    have hTr : jsTruthy (some ts) = true := by simp [jsTruthy, hne]
    simp [toolMeta, toolMetaParts, hD, hS, hT, hTr, intercalate_pair]
  · intro t d hD hS hT
    rw [Bool.not_eq_true] at hS hT
    simp [toolMeta, toolMetaParts, hD, hS, hT, intercalate_single]
  · intro t st hD hS hne
    have hTr : jsTruthy (some st) = true := by simp [jsTruthy, hne]
    simp [toolMeta, toolMetaParts, hD, hS, hTr, intercalate_single]

/-- C9 witness: the duration + started-at shape at a concrete record, with
the 12.5 ms duration rounding to 13. -/
theorem C9_tool_meta_witness :
    toolMeta { duration_ms := some (mkRat 25 2), started_at := some "t0" } =
      some "13 ms · t0" := by
  have hr : jsRound (mkRat 25 2) = 13 := by rw [jsRound_eq_floor]; norm_num
  have h := C9_tool_meta.2.2.2.1 { duration_ms := some (mkRat 25 2), started_at := some "t0" }
    (mkRat 25 2) "t0" rfl rfl (by decide)
  rw [h, hr]
  decide

/-! ## Claim C5: backend-declared errors short-circuit rendering -/

/-- The assistant bubbles a parsed no-error response contributes: the
assistant/model entries of a `messages` array, else a non-empty `reply`. -/
def assistantBubbles (data : ChatResponse) : List ConvEntry :=
  match data.messages with
  | some ms =>
      ms.filterMap (fun m =>
        if m.role = "assistant" ∨ m.role = "model" then
          some (.bubble "assistant" (m.content.getD "")) else none)
  | none =>
      match data.reply with
      | some r => if r ≠ "" then [.bubble "assistant" r] else []
      | none => []

theorem appendAssistant_foldl (ms : List ChatMessage) (s : UIState) :
    ms.foldl (fun acc m =>
      if m.role = "assistant" ∨ m.role = "model" then
        appendMessage acc "assistant" (m.content.getD "") else acc) s =
    { s with conv := s.conv ++ ms.filterMap (fun m =>
        if m.role = "assistant" ∨ m.role = "model" then
          some (ConvEntry.bubble "assistant" (m.content.getD "")) else none) } := by
  induction ms generalizing s with
  | nil => simp
  | cons m ms ih =>
    rw [List.foldl_cons, List.filterMap_cons]
    by_cases h : m.role = "assistant" ∨ m.role = "model"
    · rw [if_pos h, if_pos h, ih]
      simp [appendMessage]
    · rw [if_neg h, if_neg h, ih]

theorem processChatMessages_eq (s : UIState) (data : ChatResponse) :
    processChatMessages s data = { s with conv := s.conv ++ assistantBubbles data } := by
  unfold processChatMessages assistantBubbles
  match data.messages with
  | some ms => exact appendAssistant_foldl ms s
  | none =>
    match data.reply with
    | some r =>
      by_cases hr : r = ""
      · simp [hr]
      · simp [hr, appendMessage]
    | none => simp

theorem processChatData_no_error (s : UIState) (data : ChatResponse)
    (he : data.error = none) :
    processChatData s data =
      (match data.tools with
       | some ts => updateTools { s with conv := s.conv ++ assistantBubbles data } ts
       | none => { s with conv := s.conv ++ assistantBubbles data }) := by
  have htr : jsTruthy data.error = false := by rw [he]; rfl
  unfold processChatData
  rw [htr]
  simp only [Bool.false_eq_true, if_false]
  rw [processChatMessages_eq]

/-- C5: a successful chat response carrying a non-empty `error` field
appends exactly one system bubble with that error verbatim and processes
neither `messages` nor `reply` nor `tools` (conversation gains only the
system bubble; the tool panel is untouched); with no `error` field the
assistant/model entries of `messages` (else a non-empty `reply`) are
appended and a `tools` array, exactly when present, replaces the panel. -/
theorem C5_error_short_circuit :
    (∀ (s : UIState) (data : ChatResponse) (e : String), data.error = some e → e ≠ "" →
      (sendMessageFinish s (.success data)).conv =
        removeFirstTyping s.conv ++ [ConvEntry.bubble "system" e] ∧
      (sendMessageFinish s (.success data)).toolCards = s.toolCards ∧
      (sendMessageFinish s (.success data)).toolsEmptyShown = s.toolsEmptyShown ∧
      (sendMessageFinish s (.success data)).welcomeVisible = s.welcomeVisible) ∧
    (∀ (s : UIState) (data : ChatResponse), data.error = none →
      (sendMessageFinish s (.success data)).conv =
        removeFirstTyping s.conv ++ assistantBubbles data ∧
      (data.tools = none →
        (sendMessageFinish s (.success data)).toolCards = s.toolCards ∧
        (sendMessageFinish s (.success data)).toolsEmptyShown = s.toolsEmptyShown) ∧
      (∀ ts, data.tools = some ts → ts ≠ [] →
        (sendMessageFinish s (.success data)).toolCards =
          ts.map (renderToolCard s.expandAllTools) ∧
        (sendMessageFinish s (.success data)).toolsEmptyShown = false) ∧
      (∀ ts, data.tools = some ts → ts = [] →
        (sendMessageFinish s (.success data)).toolCards = [] ∧
        (sendMessageFinish s (.success data)).toolsEmptyShown = true)) := by
  have hc : ∀ s data, (sendMessageFinish s (.success data)).conv =
      (processChatData (hideTyping s) data).conv := fun s data => rfl
  have htc : ∀ s data, (sendMessageFinish s (.success data)).toolCards =
      (processChatData (hideTyping s) data).toolCards := fun s data => rfl
  have hte : ∀ s data, (sendMessageFinish s (.success data)).toolsEmptyShown =
      (processChatData (hideTyping s) data).toolsEmptyShown := fun s data => rfl
  have hwv : ∀ s data, (sendMessageFinish s (.success data)).welcomeVisible =
      (processChatData (hideTyping s) data).welcomeVisible := fun s data => rfl
  constructor
  · intro s data e he hne
    have htr2 : jsTruthy (some e) = true := by simp [jsTruthy, hne]
    have hP : processChatData (hideTyping s) data =
        appendMessage (hideTyping s) "system" (data.error.getD "") := by
      unfold processChatData
      rw [he, htr2]
      simp
    refine ⟨?_, ?_, ?_, ?_⟩
    · rw [hc, hP, he]; rfl
    · rw [htc, hP]; rfl
    · rw [hte, hP]; rfl
    · rw [hwv, hP]
      simp [appendMessage, hideTyping]
  · intro s data he
    have hP := processChatData_no_error (hideTyping s) data he
    rcases ht : data.tools with _ | ts
    · rw [ht] at hP
      refine ⟨?_, fun _ => ⟨?_, ?_⟩, ?_, ?_⟩
      · rw [hc, hP]; rfl
      · rw [htc, hP]; rfl
      · rw [hte, hP]; rfl
      · intro ts2 h; exact absurd h (by simp)
      · intro ts2 h; exact absurd h (by simp)
    · rw [ht] at hP
      by_cases hts : ts = []
      · subst hts
        refine ⟨?_, ?_, ?_, ?_⟩
        · rw [hc, hP]; simp [updateTools, hideTyping]
        · intro h; exact absurd h (by simp)
        · intro ts2 h hne2
          obtain rfl := (Option.some.inj h).symm
          cases hne2 rfl
        · intro ts2 h h2
          refine ⟨?_, ?_⟩
          · rw [htc, hP]; simp [updateTools]
          · rw [hte, hP]; simp [updateTools]
      · refine ⟨?_, ?_, ?_, ?_⟩
        · rw [hc, hP]; simp [updateTools, hts, hideTyping]
        · intro h; exact absurd h (by simp)
        · intro ts2 h hne2
          obtain rfl := (Option.some.inj h).symm
          refine ⟨?_, ?_⟩
          · rw [htc, hP]; simp [updateTools, hts, hideTyping]
          · rw [hte, hP]; simp [updateTools, hts]
        · intro ts2 h h2
          obtain rfl := (Option.some.inj h).symm
          cases hts h2

/-- C5 witness: the short-circuit applied at a concrete pending state and a
response that carries an error alongside messages and tools. -/
theorem C5_error_short_circuit_witness :
    (sendMessageFinish
      { initUIState with conv := [ConvEntry.bubble "user" "hi", ConvEntry.typing] }
      (.success { error := some "boom",
                  messages := some [{ role := "assistant", content := some "ignored" }],
                  tools := some [{}] })).conv =
        [ConvEntry.bubble "user" "hi", ConvEntry.bubble "system" "boom"] ∧
    (sendMessageFinish
      { initUIState with conv := [ConvEntry.bubble "user" "hi", ConvEntry.typing] }
      (.success { error := some "boom",
                  messages := some [{ role := "assistant", content := some "ignored" }],
                  tools := some [{}] })).toolCards = [] := by
  have h := C5_error_short_circuit.1
    { initUIState with conv := [ConvEntry.bubble "user" "hi", ConvEntry.typing] }
    { error := some "boom",
      messages := some [{ role := "assistant", content := some "ignored" }],
      tools := some [{}] }
    "boom" rfl (by decide)
  exact ⟨h.1.trans (by decide), h.2.1⟩

/-! ## Claim C2: escaping before formatting, and markup safety

`tagSafe l` states that every `<` in `l` opens one of the seven tag shapes
the inline-formatting pass can emit (`<b>`, `</b>`, `<i>`, `</i>`,
`<code>`, `</code>`, `<br>`): rendered output satisfying it contains no
live element other than the restricted formatting tags. -/

/-- The seven ways an allowed formatting tag continues after a `<`. -/
def tagCompletions : List (List Char) :=
  ["b>".toList, "/b>".toList, "i>".toList, "/i>".toList,
   "code>".toList, "/code>".toList, "br>".toList]

/-- `startsWith p l`: `p` is a prefix of `l`. -/
def startsWith : List Char → List Char → Bool
  | [], _ => true
  | _ :: _, [] => false
  | p :: ps, a :: as => if p = a then startsWith ps as else false

/-- The character list opens with one of the allowed tag completions. -/
def anyTag (l : List Char) : Bool := tagCompletions.any (fun t => startsWith t l)

/-- Every `<` in the list is immediately followed by an allowed tag
completion. -/
def tagSafe : List Char → Bool
  | [] => true
  | a :: l => (if a = '<' then anyTag l else true) && tagSafe l

theorem startsWith_iff (p : List Char) :
    ∀ l, startsWith p l = true ↔ ∃ r, l = p ++ r := by
  induction p with
  | nil => intro l; simp [startsWith]
  | cons c p ih =>
    intro l
    cases l with
    | nil => simp [startsWith]
    | cons a l =>
      by_cases h : c = a
      · subst h; simp [startsWith, ih]
      · simp only [startsWith, if_neg h]
        constructor
        · intro hf; cases hf
        · rintro ⟨r, hr⟩
          injection hr with h1 h2
          exact absurd h1.symm h

theorem startsWith_append (p r : List Char) : startsWith p (p ++ r) = true := by
  induction p with
  | nil => rfl
  | cons c p ih => simp [startsWith, ih]

theorem tagSafe_cons (a : Char) (l : List Char) :
    tagSafe (a :: l) = ((if a = '<' then anyTag l else true) && tagSafe l) := rfl

theorem tagSafe_cons_ne (a : Char) (l : List Char) (h : a ≠ '<') :
    tagSafe (a :: l) = tagSafe l := by
  rw [tagSafe_cons, if_neg h, Bool.true_and]

theorem tagSafe_drop (x : List Char) :
    ∀ y, tagSafe (x ++ y) = true → tagSafe y = true := by
  induction x with
  | nil => intro y h; exact h
  | cons a x ih =>
    intro y h
    rw [List.cons_append, tagSafe_cons, Bool.and_eq_true] at h
    exact ih y h.2

theorem tagSafe_prepend (x : List Char) (hx : ∀ c ∈ x, c ≠ '<') :
    ∀ y, tagSafe y = true → tagSafe (x ++ y) = true := by
  induction x with
  | nil => intro y h; exact h
  | cons a x ih =>
    intro y h
    rw [List.cons_append, tagSafe_cons, Bool.and_eq_true]
    refine ⟨?_, ih (fun c hc => hx c (List.mem_cons_of_mem a hc)) y h⟩
    rw [if_neg (hx a (List.mem_cons_self a x))]

/-- None of the tag completions contains a character the escaping pass or
one of the substitutions could consume or introduce mid-tag. -/
theorem tagCompletions_chars :
    ∀ t ∈ tagCompletions,
      ('<' ∉ t) ∧ ('*' ∉ t) ∧ ('_' ∉ t) ∧ ('\n' ∉ t) ∧ ('\r' ∉ t) := by decide

theorem tagSafe_tag (t : List Char) (ht : t ∈ tagCompletions) (r : List Char)
    (hr : tagSafe r = true) : tagSafe ('<' :: (t ++ r)) = true := by
  rw [tagSafe_cons, Bool.and_eq_true]
  constructor
  · rw [if_pos rfl, anyTag, List.any_eq_true]
    exact ⟨t, ht, startsWith_append t r⟩
  · exact tagSafe_prepend t
      (fun c hc e => (tagCompletions_chars t ht).1 (e ▸ hc)) r hr

theorem startsWith_stop (c : Char) :
    ∀ (p x w : List Char), c ∉ p → startsWith p (x ++ c :: w) = true →
      ∀ z, startsWith p (x ++ z) = true := by
  intro p
  induction p with
  | nil => intro x w _ _ z; rfl
  | cons d p ih =>
    intro x w hc h z
    cases x with
    | nil =>
      rw [List.nil_append, startsWith] at h
      by_cases hdc : d = c
      · exact absurd (by rw [← hdc]; exact List.mem_cons_self d p) hc
      · rw [if_neg hdc] at h; cases h
    | cons e x =>
      rw [List.cons_append, startsWith] at h ⊢
      by_cases hde : d = e
      · rw [if_pos hde] at h ⊢
        exact ih x w (fun hm => hc (List.mem_cons_of_mem d hm)) h z
      · rw [if_neg hde] at h; cases h

theorem anyTag_swap (c : Char) (hc : ∀ t ∈ tagCompletions, c ∉ t) (x w : List Char)
    (h : anyTag (x ++ c :: w) = true) (z : List Char) : anyTag (x ++ z) = true := by
  rw [anyTag, List.any_eq_true] at h ⊢
  obtain ⟨t, ht, hst⟩ := h
  exact ⟨t, ht, startsWith_stop c t x w (hc t ht) hst z⟩

/-- Deleting a delimiter tail `c :: w` and splicing in a tag-safe
continuation `z` preserves tag safety, provided `c` occurs in no tag
completion (so no completion can reach across the deleted delimiter). -/
theorem tagSafe_swap (c : Char) (hc : ∀ t ∈ tagCompletions, c ∉ t) :
    ∀ (mid w z : List Char), tagSafe (mid ++ c :: w) = true → tagSafe z = true →
      tagSafe (mid ++ z) = true := by
  intro mid
  induction mid with
  | nil => intro w z _ hz; exact hz
  | cons a mid ih =>
    intro w z h hz
    rw [List.cons_append, tagSafe_cons, Bool.and_eq_true] at h ⊢
    obtain ⟨h1, h2⟩ := h
    refine ⟨?_, ih w z h2 hz⟩
    by_cases ha : a = '<'
    · rw [if_pos ha] at h1 ⊢
      exact anyTag_swap c hc mid w h1 z
    · rw [if_neg ha]

/-! ### The escaping pass removes every markup-significant character -/

theorem mem_replaceChar (c : Char) (rep : List Char) :
    ∀ (l : List Char) (x : Char), x ∈ replaceChar c rep l →
      x ∈ rep ∨ (x ∈ l ∧ x ≠ c) := by
  intro l
  induction l with
  | nil => intro x hx; cases hx
  | cons a l ih =>
    intro x hx
    rw [replaceChar, List.mem_append] at hx
    rcases hx with hx | hx
    · by_cases hac : a = c
      · rw [if_pos hac] at hx; exact Or.inl hx
      · rw [if_neg hac] at hx
        rcases List.mem_singleton.mp hx with rfl
        exact Or.inr ⟨List.mem_cons_self _ _, hac⟩
    · rcases ih x hx with h | ⟨h1, h2⟩
      · exact Or.inl h
      · exact Or.inr ⟨List.mem_cons_of_mem a h1, h2⟩

theorem escapeHtmlL_no_markup (l : List Char) :
    ∀ x ∈ escapeHtmlL l, x ≠ '<' ∧ x ≠ '>' := by
  intro x hx
  unfold escapeHtmlL at hx
  rcases mem_replaceChar _ _ _ x hx with h | ⟨h1, h2⟩
  · have h4 : x = '&' ∨ x = 'g' ∨ x = 't' ∨ x = ';' := by simpa using h
    rcases h4 with rfl | rfl | rfl | rfl <;> exact ⟨by decide, by decide⟩
  · rcases mem_replaceChar _ _ _ x h1 with g | ⟨g1, g2⟩
    · have h4 : x = '&' ∨ x = 'l' ∨ x = 't' ∨ x = ';' := by simpa using g
      rcases h4 with rfl | rfl | rfl | rfl <;> exact ⟨by decide, by decide⟩
    · exact ⟨g2, h2⟩

/-! ### Step equations for the substitution scanners -/

theorem replaceCode_nil : replaceCode [] = [] := by
  rw [replaceCode.eq_def]

theorem replaceCode_cons_ne (a : Char) (l : List Char) (h : a ≠ '`') :
    replaceCode (a :: l) = a :: replaceCode l := by
  conv_lhs => rw [replaceCode.eq_def]
  dsimp only
  rw [if_neg h]

theorem replaceCode_tick_close (l mid after : List Char)
    (h : codeClose l = some (mid, after)) :
    replaceCode ('`' :: l) =
      "<code>".toList ++ mid ++ "</code>".toList ++ replaceCode after := by
  conv_lhs => rw [replaceCode.eq_def]
  dsimp only
  rw [if_pos rfl]
  split
  · rename_i mid2 after2 heq
    rw [h] at heq
    simp only [Option.some.injEq, Prod.mk.injEq] at heq
    obtain ⟨rfl, rfl⟩ := heq
    rfl
  · rename_i heq
    rw [h] at heq
    exact Option.noConfusion heq

theorem replaceCode_tick_none (l : List Char) (h : codeClose l = none) :
    replaceCode ('`' :: l) = '`' :: replaceCode l := by
  conv_lhs => rw [replaceCode.eq_def]
  dsimp only
  rw [if_pos rfl]
  split
  · rename_i mid2 after2 heq
    rw [h] at heq
    exact Option.noConfusion heq
  · rfl

theorem replaceBold_nil : replaceBold [] = [] := by
  rw [replaceBold.eq_def]

theorem replaceBold_cons_ne (a : Char) (l : List Char) (h : a ≠ '*') :
    replaceBold (a :: l) = a :: replaceBold l := by
  conv_lhs => rw [replaceBold.eq_def]
  dsimp only
  rw [if_neg h]

theorem replaceBold_single : replaceBold ['*'] = ['*'] := by
  rw [replaceBold.eq_def]
  simp

theorem replaceBold_star_cons_ne (b : Char) (l : List Char) (h : b ≠ '*') :
    replaceBold ('*' :: b :: l) = '*' :: replaceBold (b :: l) := by
  conv_lhs => rw [replaceBold.eq_def]
  dsimp only
  rw [if_neg h]
  simp

theorem replaceBold_close (l2 mid after : List Char)
    (h : boldClose l2 = some (mid, after)) :
    replaceBold ('*' :: '*' :: l2) =
      "<b>".toList ++ mid ++ "</b>".toList ++ replaceBold after := by
  conv_lhs => rw [replaceBold.eq_def]
  dsimp only
  split
  · split
    · rename_i mid2 after2 heq
      rw [h] at heq
      simp only [Option.some.injEq, Prod.mk.injEq] at heq
      obtain ⟨rfl, rfl⟩ := heq
      rfl
    · rename_i heq
      rw [h] at heq
      exact Option.noConfusion heq
  · rename_i heq
    exact absurd rfl heq

theorem replaceBold_ss_none (l2 : List Char) (h : boldClose l2 = none) :
    replaceBold ('*' :: '*' :: l2) = '*' :: replaceBold ('*' :: l2) := by
  conv_lhs => rw [replaceBold.eq_def]
  dsimp only
  split
  · split
    · rename_i mid2 after2 heq
      rw [h] at heq
      exact Option.noConfusion heq
    · rfl
  · rename_i heq
    exact absurd rfl heq

theorem replaceItalic_nil : replaceItalic [] = [] := by
  rw [replaceItalic.eq_def]

theorem replaceItalic_cons_ne (a : Char) (l : List Char) (h : a ≠ '_') :
    replaceItalic (a :: l) = a :: replaceItalic l := by
  conv_lhs => rw [replaceItalic.eq_def]
  dsimp only
  rw [if_neg h]

theorem replaceItalic_close (l mid after : List Char)
    (h : italicClose l = some (mid, after)) :
    replaceItalic ('_' :: l) =
      "<i>".toList ++ mid ++ "</i>".toList ++ replaceItalic after := by
  conv_lhs => rw [replaceItalic.eq_def]
  dsimp only
  rw [if_pos rfl]
  split
  · rename_i mid2 after2 heq
    rw [h] at heq
    simp only [Option.some.injEq, Prod.mk.injEq] at heq
    obtain ⟨rfl, rfl⟩ := heq
    rfl
  · rename_i heq
    rw [h] at heq
    exact Option.noConfusion heq

theorem replaceItalic_uclose_none (l : List Char) (h : italicClose l = none) :
    replaceItalic ('_' :: l) = '_' :: replaceItalic l := by
  conv_lhs => rw [replaceItalic.eq_def]
  dsimp only
  rw [if_pos rfl]
  split
  · rename_i mid2 after2 heq
    rw [h] at heq
    exact Option.noConfusion heq
  · rfl

theorem replaceNL_crlf (l : List Char) :
    replaceNL ('\r' :: '\n' :: l) = "<br>".toList ++ replaceNL l := rfl

theorem replaceNL_lf (l : List Char) :
    replaceNL ('\n' :: l) = "<br>".toList ++ replaceNL l := by
  rw [replaceNL]

theorem replaceNL_cr_nil : replaceNL ['\r'] = ['\r'] := rfl

theorem replaceNL_cr_cons (b : Char) (l : List Char) (h : b ≠ '\n') :
    replaceNL ('\r' :: b :: l) = '\r' :: replaceNL (b :: l) := by
  simp [replaceNL, h]

theorem replaceNL_cons_ne (a : Char) (l : List Char) (h1 : a ≠ '\r') (h2 : a ≠ '\n') :
    replaceNL (a :: l) = a :: replaceNL l := by
  cases l with
  | nil => simp [replaceNL, h1, h2]
  | cons b l => simp [replaceNL, h1, h2]

/-! ### Factoring a match-free prefix out of a substitution pass -/

theorem replaceBold_factor (x : List Char) (hx : ∀ ch ∈ x, ch ≠ '*') :
    ∀ y, replaceBold (x ++ y) = x ++ replaceBold y := by
  induction x with
  | nil => intro y; rfl
  | cons a x ih =>
    intro y
    rw [List.cons_append, replaceBold_cons_ne a _ (hx a (List.mem_cons_self a x)),
      ih (fun c hc => hx c (List.mem_cons_of_mem a hc)), List.cons_append]

theorem replaceItalic_factor (x : List Char) (hx : ∀ ch ∈ x, ch ≠ '_') :
    ∀ y, replaceItalic (x ++ y) = x ++ replaceItalic y := by
  induction x with
  | nil => intro y; rfl
  | cons a x ih =>
    intro y
    rw [List.cons_append, replaceItalic_cons_ne a _ (hx a (List.mem_cons_self a x)),
      ih (fun c hc => hx c (List.mem_cons_of_mem a hc)), List.cons_append]

theorem replaceNL_factor (x : List Char) (hx : ∀ ch ∈ x, ch ≠ '\r' ∧ ch ≠ '\n') :
    ∀ y, replaceNL (x ++ y) = x ++ replaceNL y := by
  induction x with
  | nil => intro y; rfl
  | cons a x ih =>
    intro y
    rw [List.cons_append,
      replaceNL_cons_ne a _ (hx a (List.mem_cons_self a x)).1
        (hx a (List.mem_cons_self a x)).2,
      ih (fun c hc => hx c (List.mem_cons_of_mem a hc)), List.cons_append]

/-! ### Each substitution pass preserves tag safety -/

theorem replaceCode_tagSafe : ∀ (n : Nat) (l : List Char), l.length ≤ n →
    (∀ ch ∈ l, ch ≠ '<') → tagSafe (replaceCode l) = true := by
  intro n
  induction n with
  | zero =>
    intro l hl _
    have h0 : l = [] := List.eq_nil_of_length_eq_zero (Nat.le_zero.mp hl)
    subst h0
    rw [replaceCode_nil]; rfl
  | succ n ih =>
    intro l hl hlt
    rcases l with _ | ⟨a, l2⟩
    · rw [replaceCode_nil]; rfl
    simp only [List.length_cons] at hl
    by_cases ha : a = '`'
    · subst ha
      rcases hcc : codeClose l2 with _ | ⟨mid, after⟩
      · rw [replaceCode_tick_none l2 hcc, tagSafe_cons_ne _ _ (by decide)]
        exact ih l2 (by omega) (fun c hc => hlt c (List.mem_cons_of_mem _ hc))
      · rw [replaceCode_tick_close l2 mid after hcc]
        obtain ⟨-, hdec⟩ := codeClose_spec l2 mid after hcc
        have hlen := congrArg List.length hdec
        simp only [List.length_append, List.length_cons] at hlen
        have hmem : ∀ c ∈ after, c ∈ l2 := by
          intro c hc
          rw [hdec]
          exact List.mem_append_right _ (List.mem_cons_of_mem _ hc)
        have hmemm : ∀ c ∈ mid, c ∈ l2 := by
          intro c hc
          rw [hdec]
          exact List.mem_append_left _ hc
        have hR : tagSafe (replaceCode after) = true :=
          ih after (by omega) (fun c hc => hlt c (List.mem_cons_of_mem _ (hmem c hc)))
        have hz : tagSafe ("</code>".toList ++ replaceCode after) = true := by
          have he : ("</code>".toList ++ replaceCode after : List Char) =
              '<' :: ("/code>".toList ++ replaceCode after) := rfl
          rw [he]
          exact tagSafe_tag _ (by decide) _ hR
        have hmidz : tagSafe (mid ++ ("</code>".toList ++ replaceCode after)) = true :=
          tagSafe_prepend mid
            (fun c hc => hlt c (List.mem_cons_of_mem _ (hmemm c hc))) _ hz
        have hassoc : ("<code>".toList ++ mid ++ "</code>".toList ++ replaceCode after
            : List Char) =
            '<' :: ("code>".toList ++ (mid ++ ("</code>".toList ++ replaceCode after))) := by
          simp
        rw [hassoc]
        exact tagSafe_tag _ (by decide) _ hmidz
    · rw [replaceCode_cons_ne a l2 ha,
        tagSafe_cons_ne _ _ (hlt a (List.mem_cons_self a l2))]
      exact ih l2 (by omega) (fun c hc => hlt c (List.mem_cons_of_mem _ hc))

theorem replaceBold_tagSafe : ∀ (n : Nat) (l : List Char), l.length ≤ n →
    tagSafe l = true → tagSafe (replaceBold l) = true := by
  intro n
  induction n with
  | zero =>
    intro l hl _
    have h0 : l = [] := List.eq_nil_of_length_eq_zero (Nat.le_zero.mp hl)
    subst h0
    rw [replaceBold_nil]; rfl
  | succ n ih =>
    intro l hl hsafe
    rcases l with _ | ⟨a, l1⟩
    · rw [replaceBold_nil]; rfl
    simp only [List.length_cons] at hl
    by_cases ha : a = '*'
    · subst ha
      rcases l1 with _ | ⟨b, l2⟩
      · rw [replaceBold_single]; rfl
      simp only [List.length_cons] at hl
      by_cases hb : b = '*'
      · subst hb
        rcases hbc : boldClose l2 with _ | ⟨mid, after⟩
        · rw [replaceBold_ss_none l2 hbc, tagSafe_cons_ne _ _ (by decide)]
          rw [tagSafe_cons_ne _ _ (by decide), tagSafe_cons_ne _ _ (by decide)] at hsafe
          refine ih ('*' :: l2) (by simp only [List.length_cons]; omega) ?_
          rw [tagSafe_cons_ne _ _ (by decide)]
          exact hsafe
        · rw [replaceBold_close l2 mid after hbc]
          obtain ⟨-, hdec⟩ := boldClose_spec l2 mid after hbc
          have hlen := congrArg List.length hdec
          simp only [List.length_append, List.length_cons] at hlen
          rw [tagSafe_cons_ne _ _ (by decide), tagSafe_cons_ne _ _ (by decide),
            hdec] at hsafe
          have hafter : tagSafe after = true := by
            have h1 := tagSafe_drop mid _ hsafe
            rw [tagSafe_cons_ne _ _ (by decide), tagSafe_cons_ne _ _ (by decide)] at h1
            exact h1
          have hR : tagSafe (replaceBold after) = true :=
            ih after (by omega) hafter
          have hz : tagSafe ("</b>".toList ++ replaceBold after) = true := by
            have he : ("</b>".toList ++ replaceBold after : List Char) =
                '<' :: ("/b>".toList ++ replaceBold after) := rfl
            rw [he]
            exact tagSafe_tag _ (by decide) _ hR
          have hmidz : tagSafe (mid ++ ("</b>".toList ++ replaceBold after)) = true :=
            tagSafe_swap '*' (fun t ht => (tagCompletions_chars t ht).2.1)
              mid ('*' :: after) _ hsafe hz
          have hassoc : ("<b>".toList ++ mid ++ "</b>".toList ++ replaceBold after
              : List Char) =
              '<' :: ("b>".toList ++ (mid ++ ("</b>".toList ++ replaceBold after))) := by
            simp
          rw [hassoc]
          exact tagSafe_tag _ (by decide) _ hmidz
      · rw [replaceBold_star_cons_ne b l2 hb, tagSafe_cons_ne _ _ (by decide)]
        rw [tagSafe_cons_ne _ _ (by decide)] at hsafe
        exact ih (b :: l2) (by simp only [List.length_cons]; omega) hsafe
    · by_cases hlt : a = '<'
      · subst hlt
        rw [tagSafe_cons, if_pos rfl, Bool.and_eq_true] at hsafe
        obtain ⟨h1, h2⟩ := hsafe
        rw [anyTag, List.any_eq_true] at h1
        obtain ⟨t, ht, hst⟩ := h1
        obtain ⟨y, rfl⟩ := (startsWith_iff t _).mp hst
        have hfac := replaceBold_factor t
          (fun c hc e => (tagCompletions_chars t ht).2.1 (e ▸ hc)) y
        rw [replaceBold_cons_ne _ _ ha, hfac, tagSafe_cons, if_pos rfl, Bool.and_eq_true]
        constructor
        · rw [anyTag, List.any_eq_true]
          exact ⟨t, ht, startsWith_append t _⟩
        · rw [← hfac]
          exact ih (t ++ y) (by omega) h2
      · rw [replaceBold_cons_ne _ _ ha, tagSafe_cons_ne _ _ hlt]
        rw [tagSafe_cons_ne _ _ hlt] at hsafe
        exact ih l1 (by omega) hsafe

theorem replaceItalic_tagSafe : ∀ (n : Nat) (l : List Char), l.length ≤ n →
    tagSafe l = true → tagSafe (replaceItalic l) = true := by
  intro n
  induction n with
  | zero =>
    intro l hl _
    have h0 : l = [] := List.eq_nil_of_length_eq_zero (Nat.le_zero.mp hl)
    subst h0
    rw [replaceItalic_nil]; rfl
  | succ n ih =>
    intro l hl hsafe
    rcases l with _ | ⟨a, l1⟩
    · rw [replaceItalic_nil]; rfl
    simp only [List.length_cons] at hl
    by_cases ha : a = '_'
    · subst ha
      rcases hic : italicClose l1 with _ | ⟨mid, after⟩
      · rw [replaceItalic_uclose_none l1 hic, tagSafe_cons_ne _ _ (by decide)]
        rw [tagSafe_cons_ne _ _ (by decide)] at hsafe
        exact ih l1 (by omega) hsafe
      · rw [replaceItalic_close l1 mid after hic]
        obtain ⟨-, hdec⟩ := italicClose_spec l1 mid after hic
        have hlen := congrArg List.length hdec
        simp only [List.length_append, List.length_cons] at hlen
        rw [tagSafe_cons_ne _ _ (by decide), hdec] at hsafe
        have hafter : tagSafe after = true := by
          have h1 := tagSafe_drop mid _ hsafe
          rw [tagSafe_cons_ne _ _ (by decide)] at h1
          exact h1
        have hR : tagSafe (replaceItalic after) = true :=
          ih after (by omega) hafter
        have hz : tagSafe ("</i>".toList ++ replaceItalic after) = true := by
          have he : ("</i>".toList ++ replaceItalic after : List Char) =
              '<' :: ("/i>".toList ++ replaceItalic after) := rfl
          rw [he]
          exact tagSafe_tag _ (by decide) _ hR
        have hmidz : tagSafe (mid ++ ("</i>".toList ++ replaceItalic after)) = true :=
          tagSafe_swap '_' (fun t ht => (tagCompletions_chars t ht).2.2.1)
            mid after _ hsafe hz
        have hassoc : ("<i>".toList ++ mid ++ "</i>".toList ++ replaceItalic after
            : List Char) =
            '<' :: ("i>".toList ++ (mid ++ ("</i>".toList ++ replaceItalic after))) := by
          simp
        rw [hassoc]
        exact tagSafe_tag _ (by decide) _ hmidz
    · by_cases hlt : a = '<'
      · subst hlt
        rw [tagSafe_cons, if_pos rfl, Bool.and_eq_true] at hsafe
        obtain ⟨h1, h2⟩ := hsafe
        rw [anyTag, List.any_eq_true] at h1
        obtain ⟨t, ht, hst⟩ := h1
        obtain ⟨y, rfl⟩ := (startsWith_iff t _).mp hst
        have hfac := replaceItalic_factor t
          (fun c hc e => (tagCompletions_chars t ht).2.2.1 (e ▸ hc)) y
        rw [replaceItalic_cons_ne _ _ ha, hfac, tagSafe_cons, if_pos rfl,
          Bool.and_eq_true]
        constructor
        · rw [anyTag, List.any_eq_true]
          exact ⟨t, ht, startsWith_append t _⟩
        · rw [← hfac]
          exact ih (t ++ y) (by omega) h2
      · rw [replaceItalic_cons_ne _ _ ha, tagSafe_cons_ne _ _ hlt]
        rw [tagSafe_cons_ne _ _ hlt] at hsafe
        exact ih l1 (by omega) hsafe

theorem replaceNL_tagSafe : ∀ (n : Nat) (l : List Char), l.length ≤ n →
    tagSafe l = true → tagSafe (replaceNL l) = true := by
  intro n
  induction n with
  | zero =>
    intro l hl _
    have h0 : l = [] := List.eq_nil_of_length_eq_zero (Nat.le_zero.mp hl)
    subst h0
    rfl
  | succ n ih =>
    intro l hl hsafe
    rcases l with _ | ⟨a, l1⟩
    · rfl
    simp only [List.length_cons] at hl
    by_cases hcr : a = '\r'
    · subst hcr
      rcases l1 with _ | ⟨b, l2⟩
      · rw [replaceNL_cr_nil]; rfl
      simp only [List.length_cons] at hl
      by_cases hb : b = '\n'
      · subst hb
        rw [replaceNL_crlf]
        rw [tagSafe_cons_ne _ _ (by decide), tagSafe_cons_ne _ _ (by decide)] at hsafe
        have hR : tagSafe (replaceNL l2) = true := ih l2 (by omega) hsafe
        have he : ("<br>".toList ++ replaceNL l2 : List Char) =
            '<' :: ("br>".toList ++ replaceNL l2) := rfl
        rw [he]
        exact tagSafe_tag _ (by decide) _ hR
      · rw [replaceNL_cr_cons b l2 hb, tagSafe_cons_ne _ _ (by decide)]
        rw [tagSafe_cons_ne _ _ (by decide)] at hsafe
        exact ih (b :: l2) (by simp only [List.length_cons]; omega) hsafe
    · by_cases hlf : a = '\n'
      · subst hlf
        rw [replaceNL_lf]
        rw [tagSafe_cons_ne _ _ (by decide)] at hsafe
        have hR : tagSafe (replaceNL l1) = true := ih l1 (by omega) hsafe
        have he : ("<br>".toList ++ replaceNL l1 : List Char) =
            '<' :: ("br>".toList ++ replaceNL l1) := rfl
        rw [he]
        exact tagSafe_tag _ (by decide) _ hR
      · by_cases hlt : a = '<'
        · subst hlt
          rw [tagSafe_cons, if_pos rfl, Bool.and_eq_true] at hsafe
          obtain ⟨h1, h2⟩ := hsafe
          rw [anyTag, List.any_eq_true] at h1
          obtain ⟨t, ht, hst⟩ := h1
          obtain ⟨y, rfl⟩ := (startsWith_iff t _).mp hst
          have hfac := replaceNL_factor t
            (fun c hc => ⟨fun e => (tagCompletions_chars t ht).2.2.2.2 (e ▸ hc),
              fun e => (tagCompletions_chars t ht).2.2.2.1 (e ▸ hc)⟩) y
          rw [replaceNL_cons_ne _ _ hcr hlf, hfac, tagSafe_cons, if_pos rfl,
            Bool.and_eq_true]
          constructor
          · rw [anyTag, List.any_eq_true]
            exact ⟨t, ht, startsWith_append t _⟩
          · rw [← hfac]
            exact ih (t ++ y) (by omega) h2
        · rw [replaceNL_cons_ne _ _ hcr hlf, tagSafe_cons_ne _ _ hlt]
          rw [tagSafe_cons_ne _ _ hlt] at hsafe
          exact ih l1 (by omega) hsafe

/-- The full rendered output of `renderMarkup` is tag safe: every `<` in it
opens one of the seven restricted formatting tags. -/
theorem renderMarkup_tagSafe (s : String) : tagSafe (renderMarkup s).toList = true := by
  unfold renderMarkup
  by_cases h : s = ""
  · rw [if_pos h]; rfl
  · rw [if_neg h]
    show tagSafe (applyInlineFormatting (escapeHtmlL s.toList)) = true
    unfold applyInlineFormatting
    apply replaceNL_tagSafe _ _ (Nat.le_refl _)
    apply replaceItalic_tagSafe _ _ (Nat.le_refl _)
    apply replaceBold_tagSafe _ _ (Nat.le_refl _)
    apply replaceCode_tagSafe _ _ (Nat.le_refl _)
    exact fun ch hc => (escapeHtmlL_no_markup s.toList ch hc).1

/-- C2: the bubble body is produced by escaping the markup-significant
characters first (the escaped text contains no raw `<` or `>` at all) and
only then applying the restricted inline-formatting substitutions; every `<`
of the final output opens one of the restricted formatting tags, so literal
markup in the content can never become a live element; `<b>hello</b>`
renders as visible escaped text and `**bold**` renders with a `<b>` element
and the asterisks removed. -/
theorem C2_escape_then_format :
    (∀ content : String,
      (escapeHtml content).toList.all (fun ch => !(ch = '<' || ch = '>')) = true) ∧
    (∀ content : String,
      renderMarkup content = String.mk (applyInlineFormatting (escapeHtml content).toList)) ∧
    (∀ content : String, tagSafe (renderMarkup content).toList = true) ∧
    renderMarkup "<b>hello</b>" = "&lt;b&gt;hello&lt;/b&gt;" ∧
    renderMarkup "**bold**" = "<b>bold</b>" := by
  refine ⟨?_, ?_, renderMarkup_tagSafe, ?_, ?_⟩
  · intro content
    rw [List.all_eq_true]
    intro ch hch
    have h := escapeHtmlL_no_markup content.toList ch hch
    simp [h.1, h.2]
  · intro content
    by_cases h : content = ""
    · subst h
      have h0 : applyInlineFormatting ([] : List Char) = [] := by
        rw [applyInlineFormatting, replaceCode_nil, replaceBold_nil, replaceItalic_nil]
        rfl
      show renderMarkup "" = String.mk (applyInlineFormatting (escapeHtml "").toList)
      rw [show ((escapeHtml "").toList : List Char) = [] from rfl, h0]
      rfl
    · simp only [renderMarkup, if_neg h]
      rfl
  · simp [renderMarkup, applyInlineFormatting, escapeHtmlL, replaceChar, replaceCode,
      replaceBold, replaceItalic, replaceNL, codeClose, codeCloseGo, boldClose,
      boldCloseGo, italicClose, italicCloseGo, isDotChar]
  · simp [renderMarkup, applyInlineFormatting, escapeHtmlL, replaceChar, replaceCode,
      replaceBold, replaceItalic, replaceNL, codeClose, codeCloseGo, boldClose,
      boldCloseGo, italicClose, italicCloseGo, isDotChar]

end PEN
